import Mathlib

/-!
Verification of the graph-library charting core against its specification.

Numbers (JavaScript IEEE-754 doubles in the source) are modelled as
rationals (`ℚ`), so every algebraic identity proved here is exact; the
spec's "within floating tolerance" phrases are discharged by exact
equality in this model.  JavaScript division is only performed by the
source behind explicit non-zero guards, which the hypotheses of the
theorems below reproduce, so the total division of `ℚ` coincides with
the source's division everywhere it is exercised.
-/

namespace GraphLib

/-! ## Viewport (src/packages/core/src/viewport/Viewport.ts, extended in
src/unnamed/part_001 with pan/zoom/clampTimeRange) -/

/-- `TimeRange { start, end }`; the `end` field is named `tEnd` because `end`
is a Lean keyword. -/
structure TimeRange where
  start : ℚ
  tEnd : ℚ
deriving DecidableEq

/-- `ViewportPriceConfig { min, max, paddingPx }`. -/
structure ViewportPriceConfig where
  min : ℚ
  max : ℚ
  paddingPx : ℚ
deriving DecidableEq

/-- The `Viewport` class state: time range, price config, pixel dimensions. -/
structure Viewport where
  time : TimeRange
  price : ViewportPriceConfig
  width : ℚ
  height : ℚ
deriving DecidableEq

/-- `Viewport.getTimeSpan()`. -/
def Viewport.getTimeSpan (v : Viewport) : ℚ :=
  v.time.tEnd - v.time.start

/-- `Viewport.xScale(ts)`: `(ts - start) / timeSpan * width`, 0 when the
time span is zero. -/
def Viewport.xScale (v : Viewport) (ts : ℚ) : ℚ :=
  let timeSpan := v.time.tEnd - v.time.start
  if timeSpan = 0 then 0
  else ((ts - v.time.start) / timeSpan) * v.width

/-- `Viewport.yScale(price)`: inverted linear map onto
`[paddingPx, height - paddingPx]`, `height / 2` when the price span is zero. -/
def Viewport.yScale (v : Viewport) (price : ℚ) : ℚ :=
  let priceSpan := v.price.max - v.price.min
  if priceSpan = 0 then v.height / 2
  else
    let availableHeight := v.height - 2 * v.price.paddingPx
    let normalizedPrice := (price - v.price.min) / priceSpan
    v.price.paddingPx + availableHeight * (1 - normalizedPrice)

/-- `Viewport.invX(px)`: `start + (px / width) * timeSpan`, `start` when
`width` is zero. -/
def Viewport.invX (v : Viewport) (px : ℚ) : ℚ :=
  let timeSpan := v.time.tEnd - v.time.start
  if v.width = 0 then v.time.start
  else v.time.start + (px / v.width) * timeSpan

/-- `Viewport.invY(px)`: `min + (1 - (px - paddingPx) / availableHeight) * priceSpan`,
`(min + max) / 2` when the available height is zero. -/
def Viewport.invY (v : Viewport) (px : ℚ) : ℚ :=
  let priceSpan := v.price.max - v.price.min
  let availableHeight := v.height - 2 * v.price.paddingPx
  if availableHeight = 0 then (v.price.min + v.price.max) / 2
  else
    let normalizedY := 1 - (px - v.price.paddingPx) / availableHeight
    v.price.min + normalizedY * priceSpan

/-- `Viewport.zoom(factor, centerX)`: scales the span by `1/factor` and
redistributes it around `centerTime = invX(centerX)` preserving the
before/after ratio. -/
def Viewport.zoom (v : Viewport) (factor : ℚ) (centerX : ℚ) : Viewport :=
  let centerTime := v.invX centerX
  let currentSpan := v.getTimeSpan
  let newSpan := currentSpan / factor
  let timeBefore := centerTime - v.time.start
  let timeAfter := v.time.tEnd - centerTime
  let totalTime := timeBefore + timeAfter
  let ratioStart := timeBefore / totalTime
  let ratioEnd := timeAfter / totalTime
  { v with time := { start := centerTime - newSpan * ratioStart,
                     tEnd := centerTime + newSpan * ratioEnd } }

/-- `Viewport.clampTimeRange(minTime, maxTime, minSpan, maxSpan)`: first
clamps the span symmetrically around the centre, then slides the window
into `[minTime, maxTime]` preserving the span. -/
def Viewport.clampTimeRange (v : Viewport) (minTime maxTime minSpan maxSpan : ℚ) : Viewport :=
  let start0 := v.time.start
  let end0 := v.time.tEnd
  let span0 := end0 - start0
  let p1 :=
    if span0 < minSpan then
      let center := (start0 + end0) / 2
      (center - minSpan / 2, center + minSpan / 2, minSpan)
    else if span0 > maxSpan then
      let center := (start0 + end0) / 2
      (center - maxSpan / 2, center + maxSpan / 2, maxSpan)
    else (start0, end0, span0)
  let p2 := if p1.1 < minTime then (minTime, minTime + p1.2.2) else (p1.1, p1.2.1)
  let p3 := if p2.2 > maxTime then (maxTime - p1.2.2, maxTime) else (p2.1, p2.2)
  { v with time := { start := p3.1, tEnd := p3.2 } }

/-- A sample viewport used by witnesses: time `[0, 1000]`, price `[0, 100]`
with no padding, 800×600 pixels (the spec's own example configuration). -/
def sampleViewport : Viewport :=
  { time := { start := 0, tEnd := 1000 },
    price := { min := 0, max := 100, paddingPx := 0 },
    width := 800, height := 600 }

/-! ## CandleSeries (src/packages/core/src/data/CandleSeries.ts)

A `Float64Array` of size `n` is modelled as a `List ℚ` of length `n`
(zero-filled on allocation).  `List.set` already has the typed-array
write semantics (out-of-bounds writes are silently ignored) and
`List.get?` the read semantics (out-of-bounds reads are `undefined`,
i.e. `none`).  The opaque `CandleMeta` payload is modelled as `ℕ`. -/

/-- `Candle { ts, open, high, low, close, volume?, meta? }`; `open` is a
Lean keyword, so that field is named `opn`, and `meta` is named `cmeta`. -/
structure Candle where
  ts : ℚ
  opn : ℚ
  high : ℚ
  low : ℚ
  close : ℚ
  volume : Option ℚ := none
  cmeta : Option ℕ := none
deriving DecidableEq

/-- The sort comparator `(a, b) => a.ts - b.ts` orders candles by
timestamp; that relation is total. -/
instance : IsTotal Candle (fun a b => a.ts ≤ b.ts) :=
  ⟨fun a b => le_total a.ts b.ts⟩

/-- The candle timestamp order is transitive. -/
instance : IsTrans Candle (fun a b => a.ts ≤ b.ts) :=
  ⟨fun _ _ _ h1 h2 => le_trans h1 h2⟩

/-- A JavaScript plain-array write `arr[i] = v`: grows the array with holes
(`undefined`, i.e. `none`) when `i ≥ arr.length`. -/
def jsArrayWrite (l : List (Option ℕ)) (i : ℕ) (v : Option ℕ) : List (Option ℕ) :=
  if i < l.length then l.set i v
  else (l ++ List.replicate (i - l.length) none) ++ [v]

/-- The private state of the `CandleSeries` class.  The five price columns
are the full backing `Float64Array`s (so their list length is the
capacity); `length` is the logical row count. -/
structure CandleSeries where
  ts : List ℚ
  opn : List ℚ
  high : List ℚ
  low : List ℚ
  close : List ℚ
  volume : Option (List ℚ)
  cmeta : List (Option ℕ)
  hasVolume : Bool
  hasMeta : Bool
  length : ℕ
deriving DecidableEq

/-- A freshly constructed, empty `CandleSeries` (the constructor with no
initial candles). -/
def emptySeries : CandleSeries :=
  { ts := [], opn := [], high := [], low := [], close := [],
    volume := none, cmeta := [], hasVolume := false, hasMeta := false, length := 0 }

/-- The logically stored timestamps: the first `length` entries of the
backing `ts` column. -/
def storedTs (s : CandleSeries) : List ℚ :=
  s.ts.take s.length

/-- `CandleSeries.setData(candles)`: sorts a copy of the input by `ts`
(stably, like the JS comparator `(a, b) => a.ts - b.ts`), reallocates
exact-size columns and fills them (the population loop writes column `i`
from `sorted[i]`, which is the columnwise `map` below), allocating the
optional columns only when some row carries them.  Returns the new state
and whether a change notification fired. -/
def CandleSeries.setData (_s : CandleSeries) (candles : List Candle) : CandleSeries × Bool :=
  if candles.length = 0 then
    (emptySeries, true)
  else
    let sorted := candles.insertionSort (fun a b => a.ts ≤ b.ts)
    let hv := sorted.any (fun c => c.volume ≠ none)
    let hm := sorted.any (fun c => c.cmeta ≠ none)
    ({ ts := sorted.map (·.ts),
       opn := sorted.map (·.opn),
       high := sorted.map (·.high),
       low := sorted.map (·.low),
       close := sorted.map (·.close),
       volume := if hv then some (sorted.map (fun c => c.volume.getD 0)) else none,
       cmeta := if hm then sorted.map (·.cmeta) else [],
       hasVolume := hv, hasMeta := hm, length := sorted.length }, true)

/-- Copy of a typed array into a fresh zero-filled array of size `n`,
taking the first `k` source entries (`newArr.set(old.subarray(0, k))`). -/
def typedCopy (l : List ℚ) (k n : ℕ) : List ℚ :=
  (l.take k ++ List.replicate n 0).take n

/-- `CandleSeries.grow()`: reallocates every column to
`max(16, ceil(capacity * 1.5))` (`(3 * capacity + 1) / 2` is
`ceil(capacity * 1.5)` in integer arithmetic), copying the first
`length` stored entries. -/
def CandleSeries.grow (s : CandleSeries) : CandleSeries :=
  let currentCapacity := s.ts.length
  let newCapacity := max 16 ((3 * currentCapacity + 1) / 2)
  { s with
    ts := typedCopy s.ts s.length newCapacity,
    opn := typedCopy s.opn s.length newCapacity,
    high := typedCopy s.high s.length newCapacity,
    low := typedCopy s.low s.length newCapacity,
    close := typedCopy s.close s.length newCapacity,
    volume := if s.hasVolume then
        some (match s.volume with
          | some v => typedCopy v s.length newCapacity
          | none => List.replicate newCapacity 0)
      else none }

/-- `CandleSeries.appendCandle(candle)`: lazily allocates the optional
columns the first time a row supplies them (the volume column is created
with size `max(length, 16)` — exactly as in the source), grows the
backing storage when `length` has reached capacity, writes the row at
index `length`, and increments `length`. -/
def CandleSeries.appendCandle (s : CandleSeries) (c : Candle) : CandleSeries × Bool :=
  let s1 := if c.volume ≠ none ∧ ¬ s.hasVolume then
      { s with hasVolume := true,
               volume := some (List.replicate (max s.length 16) 0) }
    else s
  let s2 := if c.cmeta ≠ none ∧ ¬ s1.hasMeta then
      { s1 with hasMeta := true, cmeta := List.replicate s1.length none }
    else s1
  let s3 := if s2.length ≥ s2.ts.length then s2.grow else s2
  ({ s3 with
     ts := s3.ts.set s3.length c.ts,
     opn := s3.opn.set s3.length c.opn,
     high := s3.high.set s3.length c.high,
     low := s3.low.set s3.length c.low,
     close := s3.close.set s3.length c.close,
     volume := match s3.volume with
       | some varr =>
           if c.volume ≠ none then some (varr.set s3.length (c.volume.getD 0))
           else some varr
       | none => none,
     cmeta := if s3.hasMeta then jsArrayWrite s3.cmeta s3.length c.cmeta else s3.cmeta,
     length := s3.length + 1 }, true)

/-- `CandleSeries.updateLastCandle(candle)`: overwrites the columns at
`length - 1` in place; a logged no-op (no notification) on an empty
store. -/
def CandleSeries.updateLastCandle (s : CandleSeries) (c : Candle) : CandleSeries × Bool :=
  if s.length = 0 then (s, false)
  else
    let lastIndex := s.length - 1
    ({ s with
       ts := s.ts.set lastIndex c.ts,
       opn := s.opn.set lastIndex c.opn,
       high := s.high.set lastIndex c.high,
       low := s.low.set lastIndex c.low,
       close := s.close.set lastIndex c.close,
       volume := match s.volume with
         | some varr =>
             if c.volume ≠ none then some (varr.set lastIndex (c.volume.getD 0))
             else some varr
         | none => none,
       cmeta := if s.hasMeta ∧ c.cmeta ≠ none then jsArrayWrite s.cmeta lastIndex c.cmeta
         else s.cmeta }, true)

/-- `CandleSeries.updateOrAppend(candle)`: append when empty; otherwise
compare `candle.ts` with the last stored timestamp — equal updates the
last candle, greater appends, and smaller is silently rejected with only
a console warning (state unchanged, no notification). -/
def CandleSeries.updateOrAppend (s : CandleSeries) (c : Candle) : CandleSeries × Bool :=
  if s.length = 0 then s.appendCandle c
  else
    match s.ts.get? (s.length - 1) with
    | none => s.appendCandle c
    | some lastTs =>
      if c.ts = lastTs then s.updateLastCandle c
      else if c.ts > lastTs then s.appendCandle c
      else (s, false)

/-- `CandleSeries.clear()`: resets to the empty state and notifies. -/
def CandleSeries.clear (_s : CandleSeries) : CandleSeries × Bool :=
  (emptySeries, true)

/-- `CandleSeries.getCandle(index)`: `null` out of bounds; otherwise reads
every column at `index`.  The volume comes from the optional column via a
defined-ness check, so an out-of-bounds typed-array read (`undefined`)
leaves the candle's volume absent. -/
def CandleSeries.getCandle (s : CandleSeries) (index : ℕ) : Option Candle :=
  if s.length ≤ index then none
  else
    match s.ts.get? index, s.opn.get? index, s.high.get? index,
        s.low.get? index, s.close.get? index with
    | some tsv, some ov, some hv, some lv, some cv =>
      let vol : Option ℚ := match s.volume with
        | some varr => varr.get? index
        | none => none
      let cm : Option ℕ := if s.hasMeta then s.cmeta.getD index none else none
      some { ts := tsv, opn := ov, high := hv, low := lv, close := cv,
             volume := vol, cmeta := cm }
    | _, _, _, _, _ => none

/-- The binary-search loop of `firstIndexAtOrAfter`: narrow `[left, right)`
to the first index whose timestamp is `≥ target`.  In-bounds typed-array
reads are never `undefined`, so the source's dead `break` branch is
omitted and the read is `getD`. -/
def firstSearch (ts : List ℚ) (target : ℚ) (left right : ℕ) : ℕ :=
  if h : left < right then
    if ts.getD ((left + right) / 2) 0 < target then
      firstSearch ts target ((left + right) / 2 + 1) right
    else firstSearch ts target left ((left + right) / 2)
  else left
termination_by right - left
decreasing_by
  · omega
  · omega

/-- `CandleSeries.firstIndexAtOrAfter(target)`: 0 on an empty store, else
the binary search over `[0, length)`. -/
def CandleSeries.firstIndexAtOrAfter (s : CandleSeries) (target : ℚ) : ℕ :=
  if s.length = 0 then 0 else firstSearch s.ts target 0 s.length

/-- The binary-search loop of `lastIndexAtOrBefore`: narrow `(left, right]`
to the last index whose timestamp is `≤ target`.  `Math.ceil((l + r) / 2)`
on integers is `⌊(l + r + 1) / 2⌋`, i.e. `(l + r + 1) / 2` with Lean's
Euclidean `Int` division (the divisor is positive). -/
def lastSearch (ts : List ℚ) (target : ℚ) (left right : ℤ) : ℤ :=
  if h : left < right then
    if ts.getD ((left + right + 1) / 2).toNat 0 > target then
      lastSearch ts target left ((left + right + 1) / 2 - 1)
    else lastSearch ts target ((left + right + 1) / 2) right
  else left
termination_by (right - left).toNat
decreasing_by
  · omega
  · omega

/-- `CandleSeries.lastIndexAtOrBefore(target)`: -1 on an empty store, else
the binary search over `(-1, length - 1]`. -/
def CandleSeries.lastIndexAtOrBefore (s : CandleSeries) (target : ℚ) : ℤ :=
  if s.length = 0 then -1 else lastSearch s.ts target (-1) ((s.length : ℤ) - 1)

/-- Number of stored entries strictly below `t` (the sorted-case value of
`firstIndexAtOrAfter`). -/
def cntLt (l : List ℚ) (t : ℚ) : ℕ :=
  l.countP (fun x => decide (x < t))

/-- Number of stored entries at or below `t` (one more than the
sorted-case value of `lastIndexAtOrBefore`). -/
def cntLe (l : List ℚ) (t : ℚ) : ℕ :=
  l.countP (fun x => decide (x ≤ t))

/-- The states reachable from an empty series through order-respecting
mutation calls: `setData` (sorts its input), `updateOrAppend` (rejects
out-of-order input itself) and `clear` are unrestricted, while the
unguarded direct calls `appendCandle` and `updateLastCandle` are admitted
whenever the supplied timestamp respects the already-stored order — the
exact restriction an out-of-order direct call forces. -/
inductive ReachableGuarded : CandleSeries → Prop where
  | protected empty : ReachableGuarded emptySeries
  | protected setData (s : CandleSeries) (rows : List Candle) :
      ReachableGuarded s → ReachableGuarded (s.setData rows).1
  | protected updateOrAppend (s : CandleSeries) (c : Candle) :
      ReachableGuarded s → ReachableGuarded (s.updateOrAppend c).1
  | protected clear (s : CandleSeries) :
      ReachableGuarded s → ReachableGuarded (s.clear).1
  | protected appendCandle (s : CandleSeries) (c : Candle)
      (hord : ∀ a, s.ts.get? (s.length - 1) = some a → a ≤ c.ts) :
      ReachableGuarded s → ReachableGuarded (s.appendCandle c).1
  | protected updateLastCandle (s : CandleSeries) (c : Candle)
      (hord : ∀ a, 2 ≤ s.length → s.ts.get? (s.length - 2) = some a → a ≤ c.ts) :
      ReachableGuarded s → ReachableGuarded (s.updateLastCandle c).1

/-- A candle with all price fields equal to `t` and no optional fields. -/
def mkCandle (t : ℚ) : Candle :=
  { ts := t, opn := t, high := t, low := t, close := t }

/-- `mkCandle` with a volume attached. -/
def mkCandleV (t v : ℚ) : Candle :=
  { mkCandle t with volume := some v }

/-- Two equal timestamps stored through `appendCandle` (also the state
`setData` produces from two rows with equal `ts`). -/
def dupSeries : CandleSeries :=
  ((emptySeries.appendCandle (mkCandle 5)).1.appendCandle (mkCandle 5)).1

/-- `appendCandle(ts 10)` then `appendCandle(ts 5)`: a direct append never
checks ordering. -/
def outOfOrderSeries : CandleSeries :=
  ((emptySeries.appendCandle (mkCandle 10)).1.appendCandle (mkCandle 5)).1

/-- A one-candle series (timestamp 1), used by witnesses. -/
def oneCandleSeries : CandleSeries :=
  (emptySeries.appendCandle (mkCandle 1)).1

/-- Timestamps 1, 2, 3 fed through `updateOrAppend` from the empty series
(a state reachable through the order-guarded mutations). -/
def threeSeries : CandleSeries :=
  (((emptySeries.updateOrAppend (mkCandle 1)).1.updateOrAppend
      (mkCandle 2)).1.updateOrAppend (mkCandle 3)).1

/-- 17 volume-less appends: capacity grows 0 → 16 → 24, so the series has
`length = 17` with backing capacity 24. -/
def seventeenSeries : CandleSeries :=
  (List.range 17).foldl (fun s i => (s.appendCandle (mkCandle i)).1) emptySeries

/-- `seventeenSeries` after appending the first candle that carries a
volume (value 99, timestamp 17). -/
def volumeAppendSeries : CandleSeries :=
  (seventeenSeries.appendCandle (mkCandleV 17 99)).1

/-! ## PluginManager (src/packages/core/src/plugins/PluginManager.ts)

Plugins are identified by reference; the model gives each instance a
numeric identity `pid` besides its `name`.  The `Map<string, IPlugin>` is
modelled as its insertion-ordered entry list (keys unique in every
reachable state).  The `Bool` returned by `install`/`uninstall` records
whether the plugin's `onInstall`/`onUninstall` hook was invoked. -/

/-- A plugin: its registration name plus an instance identity. -/
structure IPlugin where
  name : String
  pid : ℕ
deriving DecidableEq

/-- The `PluginManager` state: the `Map` entries in insertion order. -/
structure PluginManager where
  plugins : List (String × IPlugin)
deriving DecidableEq

/-- `PluginManager.hasPlugin(name)` (`Map.has`). -/
def PluginManager.hasPlugin (m : PluginManager) (nm : String) : Bool :=
  m.plugins.any (fun e => e.1 = nm)

/-- `PluginManager.install(plugin)`: duplicate names only warn (no map
change, `onInstall` not invoked); otherwise the plugin is added and its
`onInstall` hook runs. -/
def PluginManager.install (m : PluginManager) (p : IPlugin) : PluginManager × Bool :=
  if m.plugins.any (fun e => e.1 = p.name) then (m, false)
  else ({ plugins := m.plugins ++ [(p.name, p)] }, true)

/-- `PluginManager.uninstall(name)`: an unknown name only warns (no map
change, no hook); otherwise the entry is removed (`Map.delete`; keys are
unique, so removing every entry with the key is the same) after its
`onUninstall` hook runs. -/
def PluginManager.uninstall (m : PluginManager) (nm : String) : PluginManager × Bool :=
  match m.plugins.find? (fun e => e.1 = nm) with
  | none => (m, false)
  | some _ => ({ plugins := m.plugins.filter (fun e => ¬ (e.1 = nm)) }, true)

/-! ## Change listeners (CandleSeries.onChange / notifyListeners)

`listeners` is a JS `Set<ChangeListener>`: insertion-ordered, duplicate
adds ignored.  Listener function references are modelled as numeric
identities; `notifyListeners` calls `forEach`, invoking each stored
reference exactly once, so a listener's invocation count per mutation is
its multiplicity in the list. -/

/-- `Set.add` (performed by `onChange`): appends unless already present. -/
def addListener (ls : List ℕ) (f : ℕ) : List ℕ :=
  if f ∈ ls then ls else ls ++ [f]

/-- `Set.delete` (performed by the unsubscribe closure returned by
`onChange`): removes the single stored occurrence, a no-op when absent. -/
def removeListener (ls : List ℕ) (f : ℕ) : List ℕ :=
  ls.erase f

/-- A manager with one installed plugin named `"alpha"`, used by witnesses. -/
def samplePM : PluginManager :=
  { plugins := [("alpha", { name := "alpha", pid := 0 })] }

end GraphLib

namespace GraphLib

/-- C1: for a viewport with non-zero time span and any zoom factor `f ≠ 0`
and pixel `centerX`, `zoom(f, centerX)` leaves `invX(centerX)` unchanged:
the domain time under the zoom-center pixel is the same before and after
the call (exactly, in the rational model). -/
theorem C1_zoom_preserves_invX (v : Viewport) (f centerX : ℚ)
    (hspan : v.time.tEnd - v.time.start ≠ 0) (hf : f ≠ 0) :
    (v.zoom f centerX).invX centerX = v.invX centerX := by
  obtain ⟨⟨s, e⟩, pc, w, h⟩ := v
  simp only [Viewport.zoom, Viewport.invX, Viewport.getTimeSpan] at *
  by_cases hw : w = 0
  · simp only [hw, if_pos rfl]
    field_simp
  · simp only [if_neg hw]
    have htot : (s + centerX / w * (e - s) - s) + (e - (s + centerX / w * (e - s)))
        = e - s := by ring
    rw [htot]
    field_simp
    ring

/-- Witness for C1 at the spec's example: viewport `[0,1000]×800px`,
`zoom(2, 400)`; both hypotheses hold and the center time is preserved. -/
theorem C1_zoom_preserves_invX_witness :
    ((1000 : ℚ) - 0 ≠ 0) ∧ (2 : ℚ) ≠ 0 ∧
      (sampleViewport.zoom 2 400).invX 400 = sampleViewport.invX 400 :=
  ⟨by norm_num, by norm_num,
    C1_zoom_preserves_invX sampleViewport 2 400 (by norm_num [sampleViewport]) (by norm_num)⟩

/-- C5 counterexample: `clampTimeRange(0, 2000, 500, 1500)` applied to the
range `{start := -100, end := 900}` yields `{start := 0, end := 1000}` (the
slide preserves the span of 1000), not the `{start := 0, end := 900}` the
claim states. -/
theorem C5_counterexample :
    ¬ (((Viewport.mk ⟨-100, 900⟩ ⟨0, 100, 0⟩ 800 600).clampTimeRange 0 2000 500 1500).time
        = ⟨0, 900⟩) := by
  norm_num [Viewport.clampTimeRange]

/-- C5 amended: `clampTimeRange(0, 2000, 500, 1500)` applied to
`{start := 500, end := 600}` produces a range of span exactly 500, and
applied to `{start := -100, end := 900}` produces exactly
`{start := 0, end := 1000}` (span 1000 preserved while sliding to the
lower bound). -/
theorem C5_clampTimeRange_examples :
    (((Viewport.mk ⟨500, 600⟩ ⟨0, 100, 0⟩ 800 600).clampTimeRange 0 2000 500 1500).time.tEnd
      - ((Viewport.mk ⟨500, 600⟩ ⟨0, 100, 0⟩ 800 600).clampTimeRange 0 2000 500 1500).time.start
      = 500) ∧
    ((Viewport.mk ⟨-100, 900⟩ ⟨0, 100, 0⟩ 800 600).clampTimeRange 0 2000 500 1500).time
      = ⟨0, 1000⟩ := by
  constructor
  · norm_num [Viewport.clampTimeRange]
  · norm_num [Viewport.clampTimeRange]

/-- C6: in a viewport with non-zero time span, width, price span and
available height, `invX ∘ xScale` and `invY ∘ yScale` are exact
round-trips (the rational model realises the floating tolerance as
exact equality). -/
theorem C6_roundtrip (v : Viewport) (ts p : ℚ)
    (hspan : v.time.tEnd - v.time.start ≠ 0) (hw : v.width ≠ 0)
    (hps : v.price.max - v.price.min ≠ 0)
    (hah : v.height - 2 * v.price.paddingPx ≠ 0) :
    v.invX (v.xScale ts) = ts ∧ v.invY (v.yScale p) = p := by
  obtain ⟨⟨s, e⟩, ⟨pmin, pmax, pad⟩, w, h⟩ := v
  simp only [Viewport.xScale, Viewport.yScale, Viewport.invX, Viewport.invY] at *
  constructor
  · rw [if_neg hspan, if_neg hw]
    field_simp
    ring
  · rw [if_neg hps, if_neg hah]
    field_simp
    ring

/-- Witness for C6 on the sample viewport at `ts = 250`, `p = 30`. -/
theorem C6_roundtrip_witness :
    sampleViewport.invX (sampleViewport.xScale 250) = 250 ∧
      sampleViewport.invY (sampleViewport.yScale 30) = 30 :=
  C6_roundtrip sampleViewport 250 30 (by norm_num [sampleViewport])
    (by norm_num [sampleViewport]) (by norm_num [sampleViewport])
    (by norm_num [sampleViewport])

/-- C8: the coordinate transforms resolve every arithmetic degeneracy to the
documented sentinel instead of dividing by zero: `xScale` returns 0 on a
zero time span, `yScale` returns `height/2` on a zero price span, `invX`
returns `start` on zero width, `invY` returns `(min+max)/2` on zero
available height; in every other case the result is the total algebraic
formula, whose divisor is non-zero (in the rational model every such value
is a finite rational, so no NaN can arise). -/
theorem C8_degenerate_sentinels (v : Viewport) (ts p px py : ℚ) :
    (v.time.tEnd = v.time.start → v.xScale ts = 0) ∧
    (v.price.max = v.price.min → v.yScale p = v.height / 2) ∧
    (v.width = 0 → v.invX px = v.time.start) ∧
    (v.height - 2 * v.price.paddingPx = 0 → v.invY py = (v.price.min + v.price.max) / 2) ∧
    (v.time.tEnd - v.time.start ≠ 0 →
      v.xScale ts = (ts - v.time.start) / (v.time.tEnd - v.time.start) * v.width) ∧
    (v.width ≠ 0 →
      v.invX px = v.time.start + (px / v.width) * (v.time.tEnd - v.time.start)) := by
  refine ⟨fun h0 => ?_, fun h0 => ?_, fun h0 => ?_, fun h0 => ?_, fun h0 => ?_, fun h0 => ?_⟩
  · simp [Viewport.xScale, h0]
  · simp [Viewport.yScale, h0]
  · simp [Viewport.invX, h0]
  · simp [Viewport.invY, h0]
  · simp [Viewport.xScale, if_neg h0]
  · simp [Viewport.invX, if_neg h0]

/-- Witness for C8 on degenerate viewports: zero time span, zero price
span, zero width and zero available height each hit their sentinel. -/
theorem C8_degenerate_sentinels_witness :
    (Viewport.mk ⟨5, 5⟩ ⟨0, 100, 0⟩ 800 600).xScale 3 = 0 ∧
    (Viewport.mk ⟨0, 1000⟩ ⟨7, 7, 0⟩ 800 600).yScale 3 = 600 / 2 ∧
    (Viewport.mk ⟨0, 1000⟩ ⟨0, 100, 0⟩ 0 600).invX 3 = 0 ∧
    (Viewport.mk ⟨0, 1000⟩ ⟨0, 100, 10⟩ 800 20).invY 3 = (0 + 100) / 2 :=
  ⟨(C8_degenerate_sentinels (Viewport.mk ⟨5, 5⟩ ⟨0, 100, 0⟩ 800 600) 3 3 3 3).1 rfl,
   (C8_degenerate_sentinels (Viewport.mk ⟨0, 1000⟩ ⟨7, 7, 0⟩ 800 600) 3 3 3 3).2.1 rfl,
   (C8_degenerate_sentinels (Viewport.mk ⟨0, 1000⟩ ⟨0, 100, 0⟩ 0 600) 3 3 3 3).2.2.1 rfl,
   (C8_degenerate_sentinels (Viewport.mk ⟨0, 1000⟩ ⟨0, 100, 10⟩ 800 20) 3 3 3 3).2.2.2.1
     (by norm_num)⟩

end GraphLib

namespace GraphLib

/-! ### Helper lemmas about the store's mutations -/

/-- `appendCandle` always increments `length` by exactly one. -/
theorem appendCandle_fst_length (s : CandleSeries) (c : Candle) :
    (s.appendCandle c).1.length = s.length + 1 := by
  unfold CandleSeries.appendCandle
  dsimp only
  split <;> split <;> split <;> rfl

/-- `updateLastCandle` never changes `length`. -/
theorem updateLastCandle_fst_length (s : CandleSeries) (c : Candle) :
    (s.updateLastCandle c).1.length = s.length := by
  unfold CandleSeries.updateLastCandle
  split <;> rfl

/-- C4: on a non-empty series whose last stored timestamp is `lastTs`,
`updateOrAppend` keeps `length` for an equal timestamp, increments it by
one for a strictly greater timestamp, and for a strictly smaller
timestamp returns the state completely unchanged with no change
notification. -/
theorem C4_updateOrAppend_cases (s : CandleSeries) (c : Candle) (lastTs : ℚ)
    (hne : s.length ≠ 0) (hlast : s.ts.get? (s.length - 1) = some lastTs) :
    (c.ts = lastTs → (s.updateOrAppend c).1.length = s.length) ∧
    (lastTs < c.ts → (s.updateOrAppend c).1.length = s.length + 1) ∧
    (c.ts < lastTs → s.updateOrAppend c = (s, false)) := by
  unfold CandleSeries.updateOrAppend
  rw [if_neg hne, hlast]
  dsimp only
  refine ⟨fun he => ?_, fun hgt => ?_, fun hlt => ?_⟩
  · rw [if_pos he]
    exact updateLastCandle_fst_length s c
  · rw [if_neg (ne_of_gt hgt), if_pos hgt]
    exact appendCandle_fst_length s c
  · rw [if_neg (ne_of_lt hlt), if_neg (not_lt.mpr hlt.le)]

/-- Witness for C4 on a one-candle series (last timestamp 1) and an
out-of-order candle (timestamp 0): the store is returned unchanged with
no notification. -/
theorem C4_updateOrAppend_cases_witness :
    oneCandleSeries.length ≠ 0 ∧
    oneCandleSeries.ts.get? (oneCandleSeries.length - 1) = some 1 ∧
    (mkCandle 0).ts < 1 ∧
    oneCandleSeries.updateOrAppend (mkCandle 0) = (oneCandleSeries, false) :=
  ⟨by decide, by decide, by decide,
    (C4_updateOrAppend_cases oneCandleSeries (mkCandle 0) 1 (by decide) (by decide)).2.2
      (by decide)⟩

/-- C3 counterexample: two direct `appendCandle` calls with timestamps 10
then 5 (a legal sequence of the store's mutation operations from the
empty series) leave the stored timestamps `[10, 5]`, violating
`ts[i] ≤ ts[i+1]`. -/
theorem C3_counterexample : ¬ (storedTs outOfOrderSeries).Chain' (· ≤ ·) := by
  have h : storedTs outOfOrderSeries = [10, 5] := rfl
  rw [h]
  intro hch
  rcases List.chain'_cons.mp hch with ⟨hle, -⟩
  norm_num at hle

/-- C7: the failing run.  After 17 volume-less appends the series has
`length = 17` and backing capacity 24; appending a candle carrying
volume 99 lazily allocates the volume column with size
`max(length, 16) = 17`, so the write at index 17 is out of bounds and
silently dropped: reading the new last candle back yields no volume. -/
theorem C7_lazy_volume_out_of_bounds :
    seventeenSeries.length = 17 ∧ seventeenSeries.ts.length = 24 ∧
    (mkCandleV 17 99).volume = some 99 ∧
    volumeAppendSeries.length = 18 ∧
    (volumeAppendSeries.getCandle 17).map (fun c => c.volume) = some none :=
  ⟨rfl, rfl, rfl, rfl, rfl⟩

/-- C9: installing a plugin whose name is already installed leaves the
manager unchanged without invoking the new plugin's `onInstall` hook, and
uninstalling a name that is not installed leaves the manager unchanged
without invoking any hook. -/
theorem C9_duplicate_install_unknown_uninstall (m : PluginManager) (p : IPlugin)
    (nm : String) :
    (m.hasPlugin p.name = true → m.install p = (m, false)) ∧
    (m.hasPlugin nm = false → m.uninstall nm = (m, false)) := by
  constructor
  · intro h
    have h' : m.plugins.any (fun e => e.1 = p.name) = true := h
    simp [PluginManager.install, h']
  · intro h
    have hfind : m.plugins.find? (fun e => e.1 = nm) = none := by
      rw [List.find?_eq_none]
      intro x hx
      have h' : ∀ x ∈ m.plugins, ¬ (x.1 = nm) := by
        simpa [PluginManager.hasPlugin, List.any_eq_false] using h
      simpa using h' x hx
    unfold PluginManager.uninstall
    rw [hfind]

/-- Witness for C9: with `"alpha"` installed, installing another plugin
named `"alpha"` and uninstalling the unknown `"beta"` are both no-ops. -/
theorem C9_duplicate_install_unknown_uninstall_witness :
    samplePM.hasPlugin "alpha" = true ∧
    samplePM.install { name := "alpha", pid := 1 } = (samplePM, false) ∧
    samplePM.hasPlugin "beta" = false ∧
    samplePM.uninstall "beta" = (samplePM, false) :=
  ⟨by decide,
   (C9_duplicate_install_unknown_uninstall samplePM { name := "alpha", pid := 1 } "beta").1
     (by decide),
   by decide,
   (C9_duplicate_install_unknown_uninstall samplePM { name := "alpha", pid := 1 } "beta").2
     (by decide)⟩

/-- C10: with a duplicate-free listener set, registering the same listener
twice is a single registration, a mutation invokes it exactly once, the
unsubscribe deletion removes it entirely, and a second unsubscribe is a
harmless no-op. -/
theorem C10_listener_set (ls : List ℕ) (f : ℕ) (hnd : ls.Nodup) :
    addListener (addListener ls f) f = addListener ls f ∧
    (addListener ls f).count f = 1 ∧
    (removeListener (addListener ls f) f).count f = 0 ∧
    removeListener (removeListener ls f) f = removeListener ls f := by
  have hc1 : (addListener ls f).count f = 1 := by
    unfold addListener
    by_cases h : f ∈ ls
    · rw [if_pos h]
      exact List.count_eq_one_of_mem hnd h
    · rw [if_neg h, List.count_append]
      simp [List.count_eq_zero_of_not_mem h]
  refine ⟨?_, hc1, ?_, ?_⟩
  · unfold addListener
    by_cases h : f ∈ ls
    · simp [h]
    · rw [if_neg h, if_pos (by simp)]
  · unfold removeListener
    have h2 := List.count_erase_self f (addListener ls f)
    omega
  · unfold removeListener
    have hle : ls.count f ≤ 1 := List.nodup_iff_count_le_one.mp hnd f
    have h2 := List.count_erase_self f ls
    have hnm : f ∉ ls.erase f := by
      intro hm
      have := List.count_pos_iff.mpr hm
      omega
    exact (List.erase_of_not_mem hnm).symm ▸ rfl

/-- Witness for C10 on the listener set `[3, 7]` with listener 7. -/
theorem C10_listener_set_witness :
    addListener (addListener [3, 7] 7) 7 = addListener [3, 7] 7 ∧
    (addListener [3, 7] 7).count 7 = 1 ∧
    (removeListener (addListener [3, 7] 7) 7).count 7 = 0 ∧
    removeListener (removeListener [3, 7] 7) 7 = removeListener [3, 7] 7 :=
  C10_listener_set [3, 7] 7 (by decide)

end GraphLib

namespace GraphLib

/-! ### Binary-search correctness on sorted prefixes -/

/-- `getD` on a `take`-prefix agrees with `getD` on the full list below the
cut. -/
theorem getD_take_of_lt {α : Type} (l : List α) (d : α) (n i : ℕ) (h : i < n) :
    (l.take n).getD i d = l.getD i d := by
  rw [List.getD_eq_getElem?_getD, List.getD_eq_getElem?_getD, List.getElem?_take, if_pos h]

/-- In a `≤`-sorted list the entries strictly below `t` occupy exactly the
indices below `cntLt`. -/
theorem sorted_getD_lt_iff (l : List ℚ) (t : ℚ) (hs : l.Sorted (· ≤ ·)) :
    ∀ i, i < l.length → (l.getD i 0 < t ↔ i < cntLt l t) := by
  induction l with
  | nil => intro i hi; exact absurd hi (by simp)
  | cons x rest ih =>
    intro i hi
    rw [List.sorted_cons] at hs
    obtain ⟨hx, hrest⟩ := hs
    by_cases hxt : x < t
    · have hc : cntLt (x :: rest) t = cntLt rest t + 1 := by
        simp [cntLt, List.countP_cons, hxt]
      cases i with
      | zero => simp [List.getD_cons_zero, hc, hxt]
      | succ j =>
        have hj : j < rest.length := by simpa using hi
        simp only [List.getD_cons_succ, hc]
        rw [ih hrest j hj]
        omega
    · have hall : ∀ y ∈ x :: rest, ¬ (y < t) := by
        intro y hy
        rcases List.mem_cons.mp hy with rfl | hy'
        · exact hxt
        · exact fun hlt => hxt ((hx y hy').trans_lt hlt)
      have hc : cntLt (x :: rest) t = 0 := by
        rw [cntLt, List.countP_eq_zero]
        intro y hy
        simpa using hall y hy
      have hmem : (x :: rest).getD i 0 ∈ x :: rest := by
        rw [List.getD_eq_getElem _ _ hi]
        exact List.getElem_mem _
      rw [hc]
      simp only [Nat.not_lt_zero, iff_false]
      exact hall _ hmem

/-- In a `≤`-sorted list the entries at or below `t` occupy exactly the
indices below `cntLe`. -/
theorem sorted_getD_le_iff (l : List ℚ) (t : ℚ) (hs : l.Sorted (· ≤ ·)) :
    ∀ i, i < l.length → (l.getD i 0 ≤ t ↔ i < cntLe l t) := by
  induction l with
  | nil => intro i hi; exact absurd hi (by simp)
  | cons x rest ih =>
    intro i hi
    rw [List.sorted_cons] at hs
    obtain ⟨hx, hrest⟩ := hs
    by_cases hxt : x ≤ t
    · have hc : cntLe (x :: rest) t = cntLe rest t + 1 := by
        simp [cntLe, List.countP_cons, hxt]
      cases i with
      | zero => simp [List.getD_cons_zero, hc, hxt]
      | succ j =>
        have hj : j < rest.length := by simpa using hi
        simp only [List.getD_cons_succ, hc]
        rw [ih hrest j hj]
        omega
    · have hall : ∀ y ∈ x :: rest, ¬ (y ≤ t) := by
        intro y hy
        rcases List.mem_cons.mp hy with rfl | hy'
        · exact hxt
        · exact fun hle => hxt ((hx y hy').trans hle)
      have hc : cntLe (x :: rest) t = 0 := by
        rw [cntLe, List.countP_eq_zero]
        intro y hy
        simpa using hall y hy
      have hmem : (x :: rest).getD i 0 ∈ x :: rest := by
        rw [List.getD_eq_getElem _ _ hi]
        exact List.getElem_mem _
      rw [hc]
      simp only [Nat.not_lt_zero, iff_false]
      exact hall _ hmem

/-- The `firstIndexAtOrAfter` loop computes `cntLt` of the sorted stored
prefix, for any bracket `[l, r]` around that value. -/
theorem firstSearch_eq_cntLt (full : List ℚ) (t : ℚ) (len : ℕ) (hlen : len ≤ full.length)
    (hs : (full.take len).Sorted (· ≤ ·)) :
    ∀ n l r, r - l ≤ n → l ≤ cntLt (full.take len) t → cntLt (full.take len) t ≤ r →
      r ≤ len → firstSearch full t l r = cntLt (full.take len) t := by
  intro n
  induction n with
  | zero =>
    intro l r hn h1 h2 h3
    rw [firstSearch, dif_neg (by omega : ¬ l < r)]
    omega
  | succ n ih =>
    intro l r hn h1 h2 h3
    by_cases hlr : l < r
    · rw [firstSearch, dif_pos hlr]
      have hmlt : (l + r) / 2 < r := by omega
      have hmge : l ≤ (l + r) / 2 := by omega
      have hmlen : (l + r) / 2 < len := by omega
      have hget : full.getD ((l + r) / 2) 0 = (full.take len).getD ((l + r) / 2) 0 :=
        (getD_take_of_lt full 0 len _ hmlen).symm
      have hiff := sorted_getD_lt_iff (full.take len) t hs ((l + r) / 2)
        (by rw [List.length_take]; omega)
      by_cases hcond : full.getD ((l + r) / 2) 0 < t
      · rw [if_pos hcond]
        have hmc : (l + r) / 2 < cntLt (full.take len) t := hiff.1 (hget ▸ hcond)
        exact ih ((l + r) / 2 + 1) r (by omega) (by omega) h2 h3
      · rw [if_neg hcond]
        have hcm : cntLt (full.take len) t ≤ (l + r) / 2 := by
          by_contra hc
          push_neg at hc
          exact hcond (hget ▸ hiff.2 hc)
        exact ih l ((l + r) / 2) (by omega) h1 hcm (by omega)
    · rw [firstSearch, dif_neg hlr]
      omega

/-- The `lastIndexAtOrBefore` loop computes `cntLe - 1` of the sorted
stored prefix, for any bracket `[l, r]` around that value. -/
theorem lastSearch_eq_cntLe (full : List ℚ) (t : ℚ) (len : ℕ) (hlen : len ≤ full.length)
    (hs : (full.take len).Sorted (· ≤ ·)) :
    ∀ n (l r : ℤ), (r - l).toNat ≤ n → -1 ≤ l →
      l ≤ (cntLe (full.take len) t : ℤ) - 1 → ((cntLe (full.take len) t : ℤ) - 1) ≤ r →
      r ≤ (len : ℤ) - 1 → lastSearch full t l r = (cntLe (full.take len) t : ℤ) - 1 := by
  intro n
  induction n with
  | zero =>
    intro l r hn hm1 h1 h2 h3
    rw [lastSearch, dif_neg (by omega : ¬ l < r)]
    omega
  | succ n ih =>
    intro l r hn hm1 h1 h2 h3
    by_cases hlr : l < r
    · rw [lastSearch, dif_pos hlr]
      have hlb : l + 1 ≤ (l + r + 1) / 2 := by omega
      have hub : (l + r + 1) / 2 ≤ r := by omega
      have hmn : ((l + r + 1) / 2).toNat < len := by omega
      have hget : full.getD ((l + r + 1) / 2).toNat 0
          = (full.take len).getD ((l + r + 1) / 2).toNat 0 :=
        (getD_take_of_lt full 0 len _ hmn).symm
      have hiff := sorted_getD_le_iff (full.take len) t hs (((l + r + 1) / 2).toNat)
        (by rw [List.length_take]; omega)
      by_cases hcond : full.getD ((l + r + 1) / 2).toNat 0 > t
      · rw [if_pos hcond]
        have hcm : cntLe (full.take len) t ≤ ((l + r + 1) / 2).toNat := by
          by_contra hc
          push_neg at hc
          exact absurd (hget ▸ hiff.2 hc) (not_le.mpr hcond)
        exact ih l ((l + r + 1) / 2 - 1) (by omega) (by omega) (by omega) (by omega) (by omega)
      · rw [if_neg hcond]
        push_neg at hcond
        have hmc : ((l + r + 1) / 2).toNat < cntLe (full.take len) t := hiff.1 (hget ▸ hcond)
        exact ih ((l + r + 1) / 2) r (by omega) (by omega) (by omega) h2 h3
    · rw [lastSearch, dif_neg hlr]
      omega

/-- On a series with a sorted stored prefix, `firstIndexAtOrAfter t` is the
number of stored timestamps strictly below `t`. -/
theorem firstIndexAtOrAfter_eq_cntLt (s : CandleSeries) (t : ℚ)
    (hlen : s.length ≤ s.ts.length) (hs : (storedTs s).Sorted (· ≤ ·)) :
    s.firstIndexAtOrAfter t = cntLt (storedTs s) t := by
  unfold CandleSeries.firstIndexAtOrAfter
  by_cases h0 : s.length = 0
  · rw [if_pos h0]
    simp [storedTs, h0, cntLt]
  · rw [if_neg h0]
    have hcle : cntLt (storedTs s) t ≤ s.length := by
      calc cntLt (storedTs s) t ≤ (storedTs s).length := List.countP_le_length _
        _ = s.length := by rw [storedTs, List.length_take]; omega
    exact firstSearch_eq_cntLt s.ts t s.length hlen hs s.length 0 s.length
      (by omega) (by omega) hcle (le_refl _)

/-- On a series with a sorted stored prefix, `lastIndexAtOrBefore t` is one
less than the number of stored timestamps at or below `t`. -/
theorem lastIndexAtOrBefore_eq_cntLe (s : CandleSeries) (t : ℚ)
    (hlen : s.length ≤ s.ts.length) (hs : (storedTs s).Sorted (· ≤ ·)) :
    s.lastIndexAtOrBefore t = (cntLe (storedTs s) t : ℤ) - 1 := by
  unfold CandleSeries.lastIndexAtOrBefore
  by_cases h0 : s.length = 0
  · rw [if_pos h0]
    simp [storedTs, h0, cntLe]
  · rw [if_neg h0]
    have hcle : cntLe (s.ts.take s.length) t ≤ s.length := by
      calc cntLe (s.ts.take s.length) t ≤ (s.ts.take s.length).length :=
            List.countP_le_length _
        _ = s.length := by rw [List.length_take]; omega
    exact lastSearch_eq_cntLe s.ts t s.length hlen hs (s.length + 1) (-1)
      ((s.length : ℤ) - 1) (by omega) (by omega) (by omega) (by omega) (by omega)

/-- `cntLt` is monotone in the threshold. -/
theorem cntLt_mono (l : List ℚ) {t t' : ℚ} (h : t ≤ t') : cntLt l t ≤ cntLt l t' := by
  apply List.countP_mono_left
  intro x _ hx
  simp only [decide_eq_true_eq] at *
  exact lt_of_lt_of_le hx h

/-- `cntLe` is monotone in the threshold. -/
theorem cntLe_mono (l : List ℚ) {t t' : ℚ} (h : t ≤ t') : cntLe l t ≤ cntLe l t' := by
  apply List.countP_mono_left
  intro x _ hx
  simp only [decide_eq_true_eq] at *
  exact le_trans hx h

/-- `cntLe` exceeds `cntLt` by exactly the multiplicity of the threshold. -/
theorem cntLe_eq_cntLt_add_count (l : List ℚ) (t : ℚ) :
    cntLe l t = cntLt l t + l.count t := by
  induction l with
  | nil => rfl
  | cons x rest ih =>
    simp only [cntLe, cntLt, List.countP_cons, List.count_cons, beq_iff_eq,
      decide_eq_true_eq] at *
    rcases lt_trichotomy x t with hlt | heq | hgt
    · rw [if_pos hlt.le, if_pos hlt, if_neg hlt.ne]
      omega
    · subst heq
      rw [if_pos (le_refl x), if_neg (lt_irrefl x), if_pos rfl]
      omega
    · rw [if_neg (not_le.mpr hgt), if_neg (not_lt.mpr hgt.le), if_neg hgt.ne']
      omega

/-- C2 counterexample: on a series storing the timestamps `[5, 5]` (two
stored rows with equal timestamps, e.g. from `setData` with duplicate
timestamps or two appends), `firstIndexAtOrAfter(5) = 0` and
`lastIndexAtOrBefore(5) = 1`, so their difference is `-1`, not 0 or 1. -/
theorem C2_counterexample :
    ¬ (((dupSeries.firstIndexAtOrAfter 5 : ℤ) - dupSeries.lastIndexAtOrBefore 5 = 0) ∨
       ((dupSeries.firstIndexAtOrAfter 5 : ℤ) - dupSeries.lastIndexAtOrBefore 5 = 1)) := by
  have hst : storedTs dupSeries = [5, 5] := rfl
  have hlen : dupSeries.length ≤ dupSeries.ts.length := by decide
  have hs : (storedTs dupSeries).Sorted (· ≤ ·) := by
    rw [hst]
    simp [List.sorted_cons]
  have h1 : dupSeries.firstIndexAtOrAfter 5 = cntLt (storedTs dupSeries) 5 :=
    firstIndexAtOrAfter_eq_cntLt dupSeries 5 hlen hs
  have h2 : dupSeries.lastIndexAtOrBefore 5 = (cntLe (storedTs dupSeries) 5 : ℤ) - 1 :=
    lastIndexAtOrBefore_eq_cntLe dupSeries 5 hlen hs
  have hcl : cntLt (storedTs dupSeries) 5 = 0 := by
    rw [hst]
    norm_num [cntLt, List.countP_cons]
  have hce : cntLe (storedTs dupSeries) 5 = 2 := by
    rw [hst]
    norm_num [cntLe, List.countP_cons]
  rw [h1, h2, hcl, hce]
  norm_num

/-- The `firstIndexAtOrAfter` loop never leaves its bracket `[l, r]`, on
any backing column whatsoever. -/
theorem firstSearch_bounds (ts : List ℚ) (t : ℚ) :
    ∀ n l r, r - l ≤ n → l ≤ r →
      l ≤ firstSearch ts t l r ∧ firstSearch ts t l r ≤ r := by
  intro n
  induction n with
  | zero =>
    intro l r hn hlr
    rw [firstSearch, dif_neg (by omega : ¬ l < r)]
    omega
  | succ n ih =>
    intro l r hn hlr
    by_cases h : l < r
    · rw [firstSearch, dif_pos h]
      by_cases hc : ts.getD ((l + r) / 2) 0 < t
      · rw [if_pos hc]
        have := ih ((l + r) / 2 + 1) r (by omega) (by omega)
        omega
      · rw [if_neg hc]
        have := ih l ((l + r) / 2) (by omega) (by omega)
        omega
    · rw [firstSearch, dif_neg h]
      omega

/-- The `firstIndexAtOrAfter` loop is monotone in the target on any
backing column, sorted or not: raising the target can only flip a
comparison `ts[mid] < t` from false to true, which sends the search into
the upper half, whose results all exceed the lower half's. -/
theorem firstSearch_mono (ts : List ℚ) {t t' : ℚ} (htt : t ≤ t') :
    ∀ n l r, r - l ≤ n → l ≤ r → firstSearch ts t l r ≤ firstSearch ts t' l r := by
  intro n
  induction n with
  | zero =>
    intro l r hn hlr
    rw [firstSearch.eq_def ts t l r, firstSearch.eq_def ts t' l r,
      dif_neg (by omega : ¬ l < r), dif_neg (by omega : ¬ l < r)]
  | succ n ih =>
    intro l r hn hlr
    by_cases h : l < r
    · rw [firstSearch.eq_def ts t l r, firstSearch.eq_def ts t' l r, dif_pos h, dif_pos h]
      by_cases hc : ts.getD ((l + r) / 2) 0 < t
      · rw [if_pos hc, if_pos (lt_of_lt_of_le hc htt)]
        exact ih ((l + r) / 2 + 1) r (by omega) (by omega)
      · rw [if_neg hc]
        by_cases hc' : ts.getD ((l + r) / 2) 0 < t'
        · rw [if_pos hc']
          have hL := firstSearch_bounds ts t ((l + r) / 2 - l) l ((l + r) / 2)
            (le_refl _) (by omega)
          have hR := firstSearch_bounds ts t' (r - ((l + r) / 2 + 1)) ((l + r) / 2 + 1) r
            (le_refl _) (by omega)
          omega
        · rw [if_neg hc']
          exact ih l ((l + r) / 2) (by omega) (by omega)
    · rw [firstSearch.eq_def ts t l r, firstSearch.eq_def ts t' l r, dif_neg h, dif_neg h]

/-- The `lastIndexAtOrBefore` loop never leaves its bracket `[l, r]`, on
any backing column whatsoever. -/
theorem lastSearch_bounds (ts : List ℚ) (t : ℚ) :
    ∀ n (l r : ℤ), (r - l).toNat ≤ n → l ≤ r →
      l ≤ lastSearch ts t l r ∧ lastSearch ts t l r ≤ r := by
  intro n
  induction n with
  | zero =>
    intro l r hn hlr
    rw [lastSearch, dif_neg (by omega : ¬ l < r)]
    omega
  | succ n ih =>
    intro l r hn hlr
    by_cases h : l < r
    · rw [lastSearch, dif_pos h]
      by_cases hc : ts.getD ((l + r + 1) / 2).toNat 0 > t
      · rw [if_pos hc]
        have := ih l ((l + r + 1) / 2 - 1) (by omega) (by omega)
        omega
      · rw [if_neg hc]
        have := ih ((l + r + 1) / 2) r (by omega) (by omega)
        omega
    · rw [lastSearch, dif_neg h]
      omega

/-- The `lastIndexAtOrBefore` loop is monotone in the target on any
backing column, sorted or not. -/
theorem lastSearch_mono (ts : List ℚ) {t t' : ℚ} (htt : t ≤ t') :
    ∀ n (l r : ℤ), (r - l).toNat ≤ n → l ≤ r →
      lastSearch ts t l r ≤ lastSearch ts t' l r := by
  intro n
  induction n with
  | zero =>
    intro l r hn hlr
    rw [lastSearch.eq_def ts t l r, lastSearch.eq_def ts t' l r,
      dif_neg (by omega : ¬ l < r), dif_neg (by omega : ¬ l < r)]
  | succ n ih =>
    intro l r hn hlr
    by_cases h : l < r
    · rw [lastSearch.eq_def ts t l r, lastSearch.eq_def ts t' l r, dif_pos h, dif_pos h]
      by_cases hc' : ts.getD ((l + r + 1) / 2).toNat 0 > t'
      · rw [if_pos hc', if_pos (lt_of_le_of_lt htt hc')]
        exact ih l ((l + r + 1) / 2 - 1) (by omega) (by omega)
      · rw [if_neg hc']
        by_cases hc : ts.getD ((l + r + 1) / 2).toNat 0 > t
        · rw [if_pos hc]
          have hL := lastSearch_bounds ts t (((l + r + 1) / 2 - 1) - l).toNat l
            ((l + r + 1) / 2 - 1) (le_refl _) (by omega)
          have hR := lastSearch_bounds ts t' (r - (l + r + 1) / 2).toNat ((l + r + 1) / 2) r
            (le_refl _) (by omega)
          omega
        · rw [if_neg hc]
          exact ih ((l + r + 1) / 2) r (by omega) (by omega)
    · rw [lastSearch.eq_def ts t l r, lastSearch.eq_def ts t' l r, dif_neg h, dif_neg h]

/-- C2 amended: on every series whose logical length fits its backing
capacity — with no ordering assumption at all — `firstIndexAtOrAfter` and
`lastIndexAtOrBefore` are monotone non-decreasing in the target; and when
the stored timestamps are strictly increasing (no duplicates) the two
results differ by exactly 0 or 1. -/
theorem C2_monotone_and_gap (s : CandleSeries) (t t' : ℚ)
    (hlen : s.length ≤ s.ts.length) (htt : t ≤ t') :
    (s.firstIndexAtOrAfter t ≤ s.firstIndexAtOrAfter t' ∧
     s.lastIndexAtOrBefore t ≤ s.lastIndexAtOrBefore t') ∧
    ((storedTs s).Sorted (· < ·) →
      (s.firstIndexAtOrAfter t : ℤ) - s.lastIndexAtOrBefore t = 0 ∨
      (s.firstIndexAtOrAfter t : ℤ) - s.lastIndexAtOrBefore t = 1) := by
  refine ⟨⟨?_, ?_⟩, fun hstrict => ?_⟩
  · unfold CandleSeries.firstIndexAtOrAfter
    by_cases h0 : s.length = 0
    · simp only [if_pos h0]
      exact le_refl 0
    · simp only [if_neg h0]
      exact firstSearch_mono s.ts htt s.length 0 s.length (by omega) (by omega)
  · unfold CandleSeries.lastIndexAtOrBefore
    by_cases h0 : s.length = 0
    · simp only [if_pos h0]
      exact le_refl (-1)
    · simp only [if_neg h0]
      exact lastSearch_mono s.ts htt s.length (-1) ((s.length : ℤ) - 1)
        (by omega) (by omega)
  · have hs : (storedTs s).Sorted (· ≤ ·) :=
      List.Pairwise.imp (fun h => le_of_lt h) hstrict
    rw [firstIndexAtOrAfter_eq_cntLt s t hlen hs, lastIndexAtOrBefore_eq_cntLe s t hlen hs]
    have h1 := cntLe_eq_cntLt_add_count (storedTs s) t
    have h2 : (storedTs s).count t ≤ 1 :=
      List.nodup_iff_count_le_one.mp hstrict.nodup t
    omega

/-- Witness for the amended C2 on stored timestamps `[1, 2, 3]` with
targets 2 and 3. -/
theorem C2_monotone_and_gap_witness :
    threeSeries.length ≤ threeSeries.ts.length ∧ ((2 : ℚ) ≤ 3) ∧
    ((threeSeries.firstIndexAtOrAfter 2 ≤ threeSeries.firstIndexAtOrAfter 3 ∧
      threeSeries.lastIndexAtOrBefore 2 ≤ threeSeries.lastIndexAtOrBefore 3) ∧
     ((storedTs threeSeries).Sorted (· < ·) →
       (threeSeries.firstIndexAtOrAfter 2 : ℤ) - threeSeries.lastIndexAtOrBefore 2 = 0 ∨
       (threeSeries.firstIndexAtOrAfter 2 : ℤ) - threeSeries.lastIndexAtOrBefore 2 = 1)) :=
  ⟨by decide, by norm_num,
    C2_monotone_and_gap threeSeries 2 3 (by decide) (by norm_num)⟩

end GraphLib

namespace GraphLib

/-! ### Sort-invariant preservation by the order-guarded mutations -/

/-- Taking one element past an in-bounds `set` splits off the new value. -/
theorem take_set_succ {α : Type} (l : List α) (n : ℕ) (v : α) (h : n < l.length) :
    (l.set n v).take (n + 1) = l.take n ++ [v] := by
  induction l generalizing n with
  | nil => simp at h
  | cons x xs ih =>
    cases n with
    | zero => simp
    | succ m =>
      rw [List.set_cons_succ, List.take_succ_cons, List.take_succ_cons,
        ih m (by simpa using h), List.cons_append]

/-- Writing back the value already stored at an index is the identity. -/
theorem set_get?_eq_self {α : Type} (l : List α) (n : ℕ) (v : α)
    (h : l.get? n = some v) : l.set n v = l := by
  induction l generalizing n with
  | nil => exact absurd h (by simp)
  | cons x xs ih =>
    cases n with
    | zero =>
      simp only [List.get?_cons_zero, Option.some.injEq] at h
      simp [h]
    | succ m =>
      simp only [List.get?_cons_succ] at h
      rw [List.set_cons_succ, ih m h]

/-- A `typedCopy` always has the requested size. -/
theorem typedCopy_length (l : List ℚ) (k n : ℕ) : (typedCopy l k n).length = n := by
  simp only [typedCopy, List.length_take, List.length_append, List.length_replicate]
  omega

/-- A `typedCopy` preserves the copied prefix. -/
theorem typedCopy_take (l : List ℚ) (k n : ℕ) (hk : k ≤ l.length) (hkn : k ≤ n) :
    (typedCopy l k n).take k = l.take k := by
  rw [typedCopy, List.take_take, min_eq_left hkn,
    List.take_append_of_le_length (by rw [List.length_take]; omega),
    List.take_take, min_self]

/-- Every entry of a `≤`-sorted list is bounded by its last entry. -/
theorem sorted_all_le_last (l : List ℚ) (hs : l.Sorted (· ≤ ·)) (a : ℚ)
    (ha : l.get? (l.length - 1) = some a) : ∀ x ∈ l, x ≤ a := by
  intro x hx
  obtain ⟨i, hgx⟩ := List.mem_iff_get.mp hx
  have hne : l.length ≠ 0 := by
    intro h0
    rw [List.get?_eq_none.mpr (by omega)] at ha
    exact Option.noConfusion ha
  have hlt : l.length - 1 < l.length := by omega
  have hlast : l.get ⟨l.length - 1, hlt⟩ = a := by
    have h2 := List.get?_eq_get hlt
    rw [h2] at ha
    exact Option.some_injective _ ha
  rw [← hgx, ← hlast]
  exact hs.get_mono (by simp [Fin.le_def]; omega)

/-- The last stored timestamp read through `storedTs` is the one read from
the backing column. -/
theorem storedTs_get?_last (s : CandleSeries) (h0 : s.length ≠ 0) :
    (storedTs s).get? (s.length - 1) = s.ts.get? (s.length - 1) := by
  rw [storedTs, List.get?_eq_getElem?, List.get?_eq_getElem?, List.getElem?_take,
    if_pos (by omega)]

/-- `appendCandle` appends exactly the new timestamp to the stored prefix
and keeps the logical length within capacity. -/
theorem appendCandle_preserve (s : CandleSeries) (c : Candle)
    (hlen : s.length ≤ s.ts.length) :
    storedTs (s.appendCandle c).1 = storedTs s ++ [c.ts] ∧
    (s.appendCandle c).1.length ≤ (s.appendCandle c).1.ts.length := by
  unfold CandleSeries.appendCandle CandleSeries.grow
  dsimp only
  split_ifs with hA hB hC hC hB hC hC <;>
    dsimp only [storedTs] at * <;>
    constructor <;>
    first
      | (rw [List.length_set]
         simp only [typedCopy_length]
         omega)
      | (rw [take_set_succ _ _ _ (by simp only [typedCopy_length]; omega),
          typedCopy_take _ _ _ (by omega) (by omega)])
      | (rw [List.length_set]; omega)
      | (rw [take_set_succ _ _ _ (by omega)])

/-- `updateLastCandle` with the timestamp already stored at the last index
leaves the stored timestamps, the capacity and the length unchanged. -/
theorem updateLastCandle_storedTs_same (s : CandleSeries) (c : Candle)
    (hlast : s.ts.get? (s.length - 1) = some c.ts) :
    storedTs (s.updateLastCandle c).1 = storedTs s ∧
    (s.updateLastCandle c).1.ts.length = s.ts.length ∧
    (s.updateLastCandle c).1.length = s.length := by
  unfold CandleSeries.updateLastCandle
  split_ifs
  all_goals
    first
      | exact ⟨rfl, rfl, rfl⟩
      | (dsimp only [storedTs]
         rw [set_get?_eq_self s.ts (s.length - 1) c.ts hlast]
         exact ⟨rfl, rfl, rfl⟩)

/-- Appending a timestamp that dominates the last entry of a sorted
prefix keeps the prefix-plus-new-entry sorted. -/
theorem sorted_take_append (l : List ℚ) (k : ℕ) (tnew : ℚ) (hk : k ≤ l.length)
    (hs : (l.take k).Sorted (· ≤ ·))
    (hord : ∀ a, 1 ≤ k → l.get? (k - 1) = some a → a ≤ tnew) :
    (l.take k ++ [tnew]).Sorted (· ≤ ·) := by
  refine List.pairwise_append.mpr ⟨hs, by simp, ?_⟩
  intro x hx y hy
  rw [List.mem_singleton] at hy
  subst hy
  by_cases h0 : k = 0
  · rw [h0, List.take_zero] at hx
    exact absurd hx (List.not_mem_nil x)
  · have hlt : k - 1 < l.length := by omega
    have hget : l.get? (k - 1) = some (l.get ⟨k - 1, hlt⟩) := List.get?_eq_get hlt
    have hget' : (l.take k).get? ((l.take k).length - 1) = some (l.get ⟨k - 1, hlt⟩) := by
      have hlk : (l.take k).length = k := by rw [List.length_take]; omega
      rw [hlk, List.get?_eq_getElem?, List.getElem?_take, if_pos (by omega),
        ← List.get?_eq_getElem?]
      exact hget
    exact (sorted_all_le_last (l.take k) hs _ hget' x hx).trans
      (hord _ (by omega) hget)

/-- `updateLastCandle` keeps the store well-formed whenever the supplied
timestamp is at least the second-to-last stored timestamp (vacuous on
stores with fewer than two rows; a no-op on an empty store). -/
theorem updateLastCandle_preserve (s : CandleSeries) (c : Candle)
    (hlen : s.length ≤ s.ts.length) (hs : (storedTs s).Sorted (· ≤ ·))
    (hord : ∀ a, 2 ≤ s.length → s.ts.get? (s.length - 2) = some a → a ≤ c.ts) :
    (s.updateLastCandle c).1.length ≤ (s.updateLastCandle c).1.ts.length ∧
    (storedTs (s.updateLastCandle c).1).Sorted (· ≤ ·) := by
  unfold CandleSeries.updateLastCandle
  split_ifs
  all_goals
    first
      | exact ⟨hlen, hs⟩
      | (constructor
         · dsimp only
           rw [List.length_set]
           exact hlen
         · dsimp only [storedTs]
           have heq : (s.ts.set (s.length - 1) c.ts).take s.length
               = s.ts.take (s.length - 1) ++ [c.ts] := by
             have h1 := take_set_succ s.ts (s.length - 1) c.ts (by omega)
             rw [show s.length - 1 + 1 = s.length from by omega] at h1
             exact h1
           rw [heq]
           have hpre : (s.ts.take (s.length - 1)).Sorted (· ≤ ·) := by
             have h2 : s.ts.take (s.length - 1)
                 = (s.ts.take s.length).take (s.length - 1) := by
               rw [List.take_take, min_eq_left (by omega)]
             rw [h2]
             exact List.Pairwise.sublist (List.take_sublist _ _) hs
           refine sorted_take_append s.ts (s.length - 1) c.ts (by omega) hpre ?_
           intro a hk hgeta
           refine hord a (by omega) ?_
           rw [show s.length - 2 = s.length - 1 - 1 from by omega]
           exact hgeta)

/-- `setData` establishes the store's well-formedness: the logical length
fits the capacity and the stored timestamps are sorted. -/
theorem setData_inv (s : CandleSeries) (rows : List Candle) :
    (s.setData rows).1.length ≤ (s.setData rows).1.ts.length ∧
    ((storedTs (s.setData rows).1)).Sorted (· ≤ ·) := by
  unfold CandleSeries.setData
  split_ifs with h0
  · exact ⟨by simp [emptySeries], by simp [storedTs, emptySeries]⟩
  · dsimp only [storedTs]
    constructor
    · simp
    · have hlen : (List.map (fun c => c.ts) (rows.insertionSort fun a b => a.ts ≤ b.ts)).length
          = (rows.insertionSort fun a b => a.ts ≤ b.ts).length := by simp
      rw [List.take_of_length_le (by rw [hlen])]
      exact List.pairwise_map.mpr (List.sorted_insertionSort _ rows)

/-- Every state reachable through the order-guarded mutations is
well-formed: its logical length fits the backing capacity and its stored
timestamps are sorted. -/
theorem reachable_inv (s : CandleSeries) (h : ReachableGuarded s) :
    s.length ≤ s.ts.length ∧ (storedTs s).Sorted (· ≤ ·) := by
  induction h with
  | empty => exact ⟨by simp [emptySeries], by simp [storedTs, emptySeries]⟩
  | setData s0 rows _ _ => exact setData_inv s0 rows
  | clear s0 _ _ =>
    exact ⟨by simp [CandleSeries.clear, emptySeries],
      by simp [CandleSeries.clear, storedTs, emptySeries]⟩
  | updateOrAppend s0 c _ ih =>
    obtain ⟨hlen, hs⟩ := ih
    unfold CandleSeries.updateOrAppend
    by_cases h0 : s0.length = 0
    · rw [if_pos h0]
      obtain ⟨hst, hle⟩ := appendCandle_preserve s0 c hlen
      refine ⟨hle, ?_⟩
      rw [hst]
      have hempty : storedTs s0 = [] := by rw [storedTs, h0, List.take_zero]
      rw [hempty]
      simp
    · rw [if_neg h0]
      cases hget : s0.ts.get? (s0.length - 1) with
      | none =>
        exfalso
        rw [List.get?_eq_none] at hget
        omega
      | some lastTs =>
        dsimp only
        by_cases he : c.ts = lastTs
        · rw [if_pos he]
          obtain ⟨h1, h2, h3⟩ := updateLastCandle_storedTs_same s0 c (he ▸ hget)
          refine ⟨?_, ?_⟩
          · rw [h3, h2]
            exact hlen
          · rw [h1]
            exact hs
        · rw [if_neg he]
          by_cases hgt : c.ts > lastTs
          · rw [if_pos hgt]
            obtain ⟨hst, hle⟩ := appendCandle_preserve s0 c hlen
            refine ⟨hle, ?_⟩
            rw [hst]
            refine List.pairwise_append.mpr ⟨hs, by simp, ?_⟩
            intro x hx y hy
            rw [List.mem_singleton] at hy
            subst hy
            have hget' : (storedTs s0).get? ((storedTs s0).length - 1) = some lastTs := by
              have hlst : (storedTs s0).length = s0.length := by
                rw [storedTs, List.length_take]
                omega
              rw [hlst, storedTs_get?_last s0 h0]
              exact hget
            have hxle : x ≤ lastTs := by
              have := sorted_all_le_last (storedTs s0) hs lastTs hget' x hx
              exact this
            exact hxle.trans hgt.le
          · rw [if_neg hgt]
            exact ⟨hlen, hs⟩
  | appendCandle s0 c hord _ ih =>
    obtain ⟨hlen, hs⟩ := ih
    obtain ⟨hst, hle⟩ := appendCandle_preserve s0 c hlen
    refine ⟨hle, ?_⟩
    rw [hst]
    exact sorted_take_append s0.ts s0.length c.ts hlen hs (fun a _ h => hord a h)
  | updateLastCandle s0 c hord _ ih =>
    exact updateLastCandle_preserve s0 c ih.1 ih.2 hord

/-- C3 amended: after any sequence of order-respecting mutation calls
applied to an initially empty series — `setData`, `updateOrAppend` and
`clear` unrestricted, and the unguarded direct `appendCandle` /
`updateLastCandle` calls whenever their timestamp respects the stored
order — the stored timestamps satisfy `ts[i] ≤ ts[i+1]` for every
adjacent pair.  (An out-of-order direct call breaks the invariant: see
the counterexample.) -/
theorem C3_guarded_sorted (s : CandleSeries) (h : ReachableGuarded s) :
    (storedTs s).Chain' (· ≤ ·) :=
  ((reachable_inv s h).2).chain'

/-- Witness for the amended C3: the series built by three `updateOrAppend`
calls (timestamps 1, 2, 3) is reachable and its stored timestamps are
sorted. -/
theorem C3_guarded_sorted_witness : (storedTs threeSeries).Chain' (· ≤ ·) :=
  C3_guarded_sorted threeSeries
    (ReachableGuarded.updateOrAppend _ _ (ReachableGuarded.updateOrAppend _ _
      (ReachableGuarded.updateOrAppend _ _ ReachableGuarded.empty)))

end GraphLib
